import Mathlib

/-!
# Verification of the curvature biomarker pipeline (`ventricle.py`)

Shallow embedding of the numerical core of the repository:

* `Ventricle._plane_area` / `find_ed_and_es_frame`  → `planeArea`, `areasList`,
  `esFrame`, `edFrame`
* `Ventricle.find_apices`                            → `apicesList`, `apexOf`
* `Ventricle.get_biomarkers`                         → `windowBounds`,
  `windowCols`, `curvMinColF`, `curvMinRowF`, `curvMaxColF`, `getBiomarkers`
* `Cohort._build_data_set`                           → `addCompositeIndices`,
  `buildComposites`, `buildDataSet`
* `Cohort._build_master_table`                       → `prefixCols`,
  `mergeInner`, `masterTable`

Machine floats are modelled as exact rationals (`ℚ`) except for the composite
indices, which need `Real.log` and are modelled over `ℝ`.  numpy arrays are
lists or functions out of `Fin n`; `np.roll`'s cyclic indexing is modelled by
indexing contours with `ZMod (p+1)`.
-/

namespace CurvaturePipeline

/-- Embedding of `np.argmin` on a list: index of the first occurrence of the
minimum value (`0` on the empty list, which numpy rejects). -/
def npArgmin {α : Type} [LinearOrder α] : List α → ℕ
  | [] => 0
  | a :: t => if t.all (fun x => decide (a ≤ x)) then 0 else npArgmin t + 1

/-- Embedding of `np.argmax` on a list: index of the first occurrence of the
maximum value (`0` on the empty list, which numpy rejects). -/
def npArgmax {α : Type} [LinearOrder α] : List α → ℕ
  | [] => 0
  | a :: t => if t.all (fun x => decide (x ≤ a)) then 0 else npArgmax t + 1

/-- Embedding of `np.min` / `DataFrame.min` on a list (junk value `0` on the
empty list, which pandas maps to NaN). -/
def listMin : List ℚ → ℚ
  | [] => 0
  | [a] => a
  | a :: b :: t => min a (listMin (b :: t))

/-- Embedding of `np.max` / `DataFrame.max` on a list (junk value `0` on the
empty list). -/
def listMax : List ℚ → ℚ
  | [] => 0
  | [a] => a
  | a :: b :: t => max a (listMax (b :: t))

theorem getD_mem_of_lt {α : Type} (l : List α) (d : α) {j : ℕ} (hj : j < l.length) :
    l.getD j d ∈ l := by
  rw [List.getD_eq_getElem l d hj]
  exact List.getElem_mem hj

theorem exists_getD_of_mem {α : Type} {x : α} {l : List α} (d : α) (hx : x ∈ l) :
    ∃ j, j < l.length ∧ l.getD j d = x := by
  obtain ⟨n, hn, hget⟩ := List.mem_iff_getElem.mp hx
  exact ⟨n, hn, by rw [List.getD_eq_getElem l d hn]; exact hget⟩

section ArgminLemmas

variable {α : Type} [LinearOrder α]

theorem npArgmin_lt_length {l : List α} (h : l ≠ []) : npArgmin l < l.length := by
  induction l with
  | nil => exact absurd rfl h
  | cons a t ih =>
    rw [npArgmin]
    by_cases hall : (t.all fun x => decide (a ≤ x)) = true
    · simp [hall]
    · have ht : t ≠ [] := by rintro rfl; simp at hall
      have := ih ht
      rw [if_neg hall]
      simp only [List.length_cons]
      omega

theorem npArgmin_getD_le (d : α) {l : List α} (h : l ≠ []) :
    ∀ j < l.length, l.getD (npArgmin l) d ≤ l.getD j d := by
  induction l with
  | nil => exact absurd rfl h
  | cons a t ih =>
    intro j hj
    rw [npArgmin]
    by_cases hall : (t.all fun x => decide (a ≤ x)) = true
    · simp only [hall, if_true, List.getD_cons_zero]
      rw [List.all_eq_true] at hall
      rcases j with _ | j
      · simp
      · simp only [List.getD_cons_succ]
        have hmem : t.getD j d ∈ t :=
          getD_mem_of_lt t d (by simpa [Nat.succ_lt_succ_iff] using hj)
        simpa using hall _ hmem
    · have ht : t ≠ [] := by rintro rfl; simp at hall
      rw [if_neg hall]
      simp only [List.getD_cons_succ]
      rcases j with _ | j
      · -- some element of `t` is strictly below `a`,
        -- and the argmin of `t` is below every element of `t`
        simp only [List.all_eq_true, decide_eq_true_eq] at hall
        push_neg at hall
        obtain ⟨x, hx, hxa⟩ := hall
        obtain ⟨jx, hjx, hget⟩ := exists_getD_of_mem d hx
        have := ih ht jx hjx
        rw [hget] at this
        simp only [List.getD_cons_zero]
        exact le_of_lt (lt_of_le_of_lt this hxa)
      · exact ih ht j (by simpa [Nat.succ_lt_succ_iff] using hj)

theorem npArgmin_first (d : α) {l : List α} (h : l ≠ []) :
    ∀ j < l.length, l.getD j d = l.getD (npArgmin l) d → npArgmin l ≤ j := by
  induction l with
  | nil => exact absurd rfl h
  | cons a t ih =>
    intro j hj heq
    rw [npArgmin] at heq ⊢
    by_cases hall : (t.all fun x => decide (a ≤ x)) = true
    · simp only [hall, if_true]
      exact Nat.zero_le j
    · have ht : t ≠ [] := by rintro rfl; simp at hall
      rw [if_neg hall] at heq ⊢
      simp only [List.getD_cons_succ] at heq
      simp only [List.all_eq_true, decide_eq_true_eq] at hall
      push_neg at hall
      obtain ⟨x, hx, hxa⟩ := hall
      rcases j with _ | j
      · -- the head cannot attain the minimum: some x in t is strictly smaller
        exfalso
        simp only [List.getD_cons_zero] at heq
        obtain ⟨jx, hjx, hget⟩ := exists_getD_of_mem d hx
        have hmin := npArgmin_getD_le d ht jx hjx
        rw [hget] at hmin
        have : a ≤ t.getD (npArgmin t) d := le_of_eq heq
        exact absurd (lt_of_le_of_lt (this.trans hmin) hxa) (lt_irrefl a)
      · have := ih ht j (by simpa [Nat.succ_lt_succ_iff] using hj) heq
        omega

theorem npArgmax_lt_length {l : List α} (h : l ≠ []) : npArgmax l < l.length := by
  induction l with
  | nil => exact absurd rfl h
  | cons a t ih =>
    rw [npArgmax]
    by_cases hall : (t.all fun x => decide (x ≤ a)) = true
    · simp [hall]
    · have ht : t ≠ [] := by rintro rfl; simp at hall
      have := ih ht
      rw [if_neg hall]
      simp only [List.length_cons]
      omega

theorem npArgmax_getD_ge (d : α) {l : List α} (h : l ≠ []) :
    ∀ j < l.length, l.getD j d ≤ l.getD (npArgmax l) d := by
  induction l with
  | nil => exact absurd rfl h
  | cons a t ih =>
    intro j hj
    rw [npArgmax]
    by_cases hall : (t.all fun x => decide (x ≤ a)) = true
    · simp only [hall, if_true, List.getD_cons_zero]
      rw [List.all_eq_true] at hall
      rcases j with _ | j
      · simp
      · simp only [List.getD_cons_succ]
        have hmem : t.getD j d ∈ t :=
          getD_mem_of_lt t d (by simpa [Nat.succ_lt_succ_iff] using hj)
        simpa using hall _ hmem
    · have ht : t ≠ [] := by rintro rfl; simp at hall
      rw [if_neg hall]
      simp only [List.getD_cons_succ]
      rcases j with _ | j
      · simp only [List.all_eq_true, decide_eq_true_eq] at hall
        push_neg at hall
        obtain ⟨x, hx, hxa⟩ := hall
        obtain ⟨jx, hjx, hget⟩ := exists_getD_of_mem d hx
        have := ih ht jx hjx
        rw [hget] at this
        simp only [List.getD_cons_zero]
        exact le_of_lt (lt_of_lt_of_le hxa this)
      · exact ih ht j (by simpa [Nat.succ_lt_succ_iff] using hj)

theorem npArgmax_first (d : α) {l : List α} (h : l ≠ []) :
    ∀ j < l.length, l.getD j d = l.getD (npArgmax l) d → npArgmax l ≤ j := by
  induction l with
  | nil => exact absurd rfl h
  | cons a t ih =>
    intro j hj heq
    rw [npArgmax] at heq ⊢
    by_cases hall : (t.all fun x => decide (x ≤ a)) = true
    · simp only [hall, if_true]
      exact Nat.zero_le j
    · have ht : t ≠ [] := by rintro rfl; simp at hall
      rw [if_neg hall] at heq ⊢
      simp only [List.getD_cons_succ] at heq
      simp only [List.all_eq_true, decide_eq_true_eq] at hall
      push_neg at hall
      obtain ⟨x, hx, hxa⟩ := hall
      rcases j with _ | j
      · exfalso
        simp only [List.getD_cons_zero] at heq
        obtain ⟨jx, hjx, hget⟩ := exists_getD_of_mem d hx
        have hmax := npArgmax_getD_ge d ht jx hjx
        rw [hget] at hmax
        have : t.getD (npArgmax t) d ≤ a := le_of_eq heq.symm
        exact absurd (lt_of_lt_of_le hxa (hmax.trans this)) (lt_irrefl _)
      · have := ih ht j (by simpa [Nat.succ_lt_succ_iff] using hj) heq
        omega

end ArgminLemmas

section MinMaxLemmas

theorem listMin_mem {l : List ℚ} (h : l ≠ []) : listMin l ∈ l := by
  induction l with
  | nil => exact absurd rfl h
  | cons a t ih =>
    rcases t with _ | ⟨b, t⟩
    · simp [listMin]
    · rw [listMin]
      rcases min_cases a (listMin (b :: t)) with ⟨heq, _⟩ | ⟨heq, _⟩
      · simp [heq]
      · rw [heq]
        exact List.mem_cons_of_mem a (ih (by simp))

theorem listMin_le {l : List ℚ} : ∀ a ∈ l, listMin l ≤ a := by
  induction l with
  | nil => intro a ha; simp at ha
  | cons a t ih =>
    intro x hx
    rcases t with _ | ⟨b, t⟩
    · simp at hx
      simp [listMin, hx]
    · rw [listMin]
      rcases List.mem_cons.mp hx with rfl | hx'
      · exact min_le_left _ _
      · exact le_trans (min_le_right _ _) (ih x hx')

theorem listMax_mem {l : List ℚ} (h : l ≠ []) : listMax l ∈ l := by
  induction l with
  | nil => exact absurd rfl h
  | cons a t ih =>
    rcases t with _ | ⟨b, t⟩
    · simp [listMax]
    · rw [listMax]
      rcases max_cases a (listMax (b :: t)) with ⟨heq, _⟩ | ⟨heq, _⟩
      · simp [heq]
      · rw [heq]
        exact List.mem_cons_of_mem a (ih (by simp))

theorem le_listMax {l : List ℚ} : ∀ a ∈ l, a ≤ listMax l := by
  induction l with
  | nil => intro a ha; simp at ha
  | cons a t ih =>
    intro x hx
    rcases t with _ | ⟨b, t⟩
    · simp at hx
      simp [listMax, hx]
    · rw [listMax]
      rcases List.mem_cons.mp hx with rfl | hx'
      · exact le_max_left _ _
      · exact le_trans (ih x hx') (le_max_right _ _)

end MinMaxLemmas

/-! ## `Ventricle._plane_area` and `Ventricle.find_ed_and_es_frame`

A case's raw data row `frame` is split by the source into
`x = data[frame, ::2]` and `y = data[frame, 1::2]`; we embed those two
slices directly as the contour functions `xs fr` and `ys fr`.  A contour has
`p + 1` points indexed cyclically (`np.roll` wraps around), hence the index
type `ZMod (p + 1)`. -/

/-- Embedding of `Ventricle._plane_area`:
`0.5 * np.abs(np.dot(x, np.roll(y, 1)) - np.dot(y, np.roll(x, 1)))`
where `np.roll(y, 1)[i] = y[i - 1]` cyclically. -/
def planeArea {p : ℕ} (x y : ZMod (p + 1) → ℚ) : ℚ :=
  0.5 * |(∑ i, x i * y (i - 1)) - (∑ i, y i * x (i - 1))|

/-- The per-frame `areas` array filled by `find_ed_and_es_frame`. -/
def areasList {f p : ℕ} (xs ys : Fin (f + 1) → ZMod (p + 1) → ℚ) : List ℚ :=
  (List.finRange (f + 1)).map (fun fr => planeArea (xs fr) (ys fr))

/-- `self.es_frame = np.argmin(areas)` in `find_ed_and_es_frame`. -/
def esFrame {f p : ℕ} (xs ys : Fin (f + 1) → ZMod (p + 1) → ℚ) : ℕ :=
  npArgmin (areasList xs ys)

/-- `self.ed_frame = np.argmax(areas)` in `find_ed_and_es_frame`. -/
def edFrame {f p : ℕ} (xs ys : Fin (f + 1) → ZMod (p + 1) → ℚ) : ℕ :=
  npArgmax (areasList xs ys)

theorem areasList_length {f p : ℕ} (xs ys : Fin (f + 1) → ZMod (p + 1) → ℚ) :
    (areasList xs ys).length = f + 1 := by
  simp [areasList]

theorem areasList_ne_nil {f p : ℕ} (xs ys : Fin (f + 1) → ZMod (p + 1) → ℚ) :
    areasList xs ys ≠ [] := by
  have := areasList_length xs ys
  intro hnil
  rw [hnil] at this
  simp at this

theorem areasList_getD {f p : ℕ} (xs ys : Fin (f + 1) → ZMod (p + 1) → ℚ)
    (fr : Fin (f + 1)) :
    (areasList xs ys).getD fr.val 0 = planeArea (xs fr) (ys fr) := by
  have hlt : fr.val < (areasList xs ys).length := by
    rw [areasList_length]; exact fr.isLt
  rw [List.getD_eq_getElem _ _ hlt]
  simp [areasList]

section Rotation

/-- Cyclic sums are invariant under rotating the starting index: the rotated
contour `i ↦ x (i + k)` has the same shoelace area. -/
theorem planeArea_rotate {p : ℕ} (x y : ZMod (p + 1) → ℚ) (k : ZMod (p + 1)) :
    planeArea (fun i => x (i + k)) (fun i => y (i + k)) = planeArea x y := by
  unfold planeArea
  have h1 : (∑ i, x (i + k) * y ((i - 1) + k)) = ∑ i, x i * y (i - 1) := by
    apply Fintype.sum_equiv (Equiv.addRight k)
    intro i
    simp only [Equiv.coe_addRight]
    rw [sub_add_eq_add_sub]
  have h2 : (∑ i, y (i + k) * x ((i - 1) + k)) = ∑ i, y i * x (i - 1) := by
    apply Fintype.sum_equiv (Equiv.addRight k)
    intro i
    simp only [Equiv.coe_addRight]
    rw [sub_add_eq_add_sub]
  rw [h1, h2]

/-- Under index reversal `i ↦ -1 - i` (the cyclic form of `j ↦ (p+1)-1-j`)
the two shoelace dot products swap, so the signed sum flips sign and the
absolute value absorbs the flip. -/
theorem planeArea_reverse {p : ℕ} (x y : ZMod (p + 1) → ℚ) :
    planeArea (fun i => x (-1 - i)) (fun i => y (-1 - i)) = planeArea x y := by
  unfold planeArea
  have hx : (∑ i, x (-1 - i) * y (-1 - (i - 1))) = ∑ i, y i * x (i - 1) := by
    have step1 : (∑ i, x (-1 - i) * y (-1 - (i - 1))) = ∑ j, x j * y (j + 1) := by
      apply Fintype.sum_equiv (Equiv.subLeft (-1))
      intro i
      simp only [Equiv.subLeft_apply]
      congr 1
      ring
    have step2 : (∑ j : ZMod (p + 1), x j * y (j + 1)) = ∑ i, y i * x (i - 1) := by
      apply Fintype.sum_equiv (Equiv.addRight 1)
      intro j
      simp only [Equiv.coe_addRight, add_sub_cancel_right]
      ring
    rw [step1, step2]
  have hy : (∑ i, y (-1 - i) * x (-1 - (i - 1))) = ∑ i, x i * y (i - 1) := by
    have step1 : (∑ i, y (-1 - i) * x (-1 - (i - 1))) = ∑ j, y j * x (j + 1) := by
      apply Fintype.sum_equiv (Equiv.subLeft (-1))
      intro i
      simp only [Equiv.subLeft_apply]
      congr 1
      ring
    have step2 : (∑ j : ZMod (p + 1), y j * x (j + 1)) = ∑ i, x i * y (i - 1) := by
      apply Fintype.sum_equiv (Equiv.addRight 1)
      intro j
      simp only [Equiv.coe_addRight, add_sub_cancel_right]
      ring
    rw [step1, step2]
  rw [hx, hy, abs_sub_comm]

theorem areasList_reverse {f p : ℕ} (xs ys : Fin (f + 1) → ZMod (p + 1) → ℚ) :
    areasList (fun fr i => xs fr (-1 - i)) (fun fr i => ys fr (-1 - i)) =
      areasList xs ys := by
  unfold areasList
  have : (fun fr => planeArea (fun i => xs fr (-1 - i)) (fun i => ys fr (-1 - i))) =
      fun fr => planeArea (xs fr) (ys fr) :=
    funext fun fr => planeArea_reverse (xs fr) (ys fr)
  rw [this]

end Rotation

section AllEqual

theorem npArgmin_eq_zero_of_all_eq {α : Type} [LinearOrder α] {l : List α} {a : α}
    (hall : ∀ x ∈ l, x = a) : npArgmin l = 0 := by
  cases l with
  | nil => rfl
  | cons b t =>
    rw [npArgmin, if_pos]
    rw [List.all_eq_true]
    intro x hx
    rw [hall x (List.mem_cons_of_mem b hx), hall b (List.mem_cons_self b t)]
    simp

theorem npArgmax_eq_zero_of_all_eq {α : Type} [LinearOrder α] {l : List α} {a : α}
    (hall : ∀ x ∈ l, x = a) : npArgmax l = 0 := by
  cases l with
  | nil => rfl
  | cons b t =>
    rw [npArgmax, if_pos]
    rw [List.all_eq_true]
    intro x hx
    rw [hall x (List.mem_cons_of_mem b hx), hall b (List.mem_cons_self b t)]
    simp

end AllEqual

/-! ## Claim C1: key-frame detection -/

/-- **C1.** For every case with at least one frame, `find_ed_and_es_frame`
computes each frame's area with the shoelace formula
`0.5 * |dot(x, roll(y,1)) - dot(y, roll(x,1))|` over the cyclic point
ordering, sets `es_frame` to the argmin and `ed_frame` to the argmax of the
per-frame areas, and on ties the lowest frame index wins for both. -/
theorem find_ed_and_es_frame_spec {f p : ℕ} (xs ys : Fin (f + 1) → ZMod (p + 1) → ℚ) :
    (∀ fr : Fin (f + 1), (areasList xs ys).getD fr.val 0 =
        0.5 * |(∑ i, xs fr i * ys fr (i - 1)) - (∑ i, ys fr i * xs fr (i - 1))|)
    ∧ esFrame xs ys < f + 1
    ∧ (∀ j < f + 1, (areasList xs ys).getD (esFrame xs ys) 0 ≤ (areasList xs ys).getD j 0)
    ∧ (∀ j < f + 1, (areasList xs ys).getD j 0 = (areasList xs ys).getD (esFrame xs ys) 0 →
        esFrame xs ys ≤ j)
    ∧ edFrame xs ys < f + 1
    ∧ (∀ j < f + 1, (areasList xs ys).getD j 0 ≤ (areasList xs ys).getD (edFrame xs ys) 0)
    ∧ (∀ j < f + 1, (areasList xs ys).getD j 0 = (areasList xs ys).getD (edFrame xs ys) 0 →
        edFrame xs ys ≤ j) := by
  have hne := areasList_ne_nil xs ys
  have hlen := areasList_length xs ys
  refine ⟨fun fr => ?_, ?_, fun j hj => ?_, fun j hj heq => ?_, ?_, fun j hj => ?_,
    fun j hj heq => ?_⟩
  · rw [areasList_getD]
    rfl
  · have := npArgmin_lt_length hne
    rwa [hlen] at this
  · exact npArgmin_getD_le 0 hne j (by rwa [hlen])
  · exact npArgmin_first 0 hne j (by rwa [hlen]) heq
  · have := npArgmax_lt_length hne
    rwa [hlen] at this
  · exact npArgmax_getD_ge 0 hne j (by rwa [hlen])
  · exact npArgmax_first 0 hne j (by rwa [hlen]) heq

/-- Two frames over a 3-point contour: a triangle of area 1 (frame 0) then a
triangle of area 1/2 (frame 1). -/
def xsW : Fin 2 → ZMod 3 → ℚ := fun _ i => if i = 1 then 1 else 0

/-- y-coordinates for `xsW`: apex height 2 in frame 0 and 1 in frame 1. -/
def ysW : Fin 2 → ZMod 3 → ℚ := fun fr i => if i = 2 then (if fr = 0 then 2 else 1) else 0

theorem find_ed_and_es_frame_spec_witness :
    esFrame xsW ysW < 2 ∧
    (areasList xsW ysW).getD (esFrame xsW ysW) 0 ≤ (areasList xsW ysW).getD 0 0 ∧
    edFrame xsW ysW < 2 ∧
    (areasList xsW ysW).getD 1 0 ≤ (areasList xsW ysW).getD (edFrame xsW ysW) 0 ∧
    esFrame xsW ysW ≤ esFrame xsW ysW :=
  ⟨(find_ed_and_es_frame_spec xsW ysW).2.1,
   (find_ed_and_es_frame_spec xsW ysW).2.2.1 0 (by norm_num),
   (find_ed_and_es_frame_spec xsW ysW).2.2.2.2.1,
   (find_ed_and_es_frame_spec xsW ysW).2.2.2.2.2.1 1 (by norm_num),
   (find_ed_and_es_frame_spec xsW ysW).2.2.2.1 (esFrame xsW ysW)
     (find_ed_and_es_frame_spec xsW ysW).2.1 rfl⟩

/-! ## Claim C7: invariance of the shoelace area -/

/-- **C7.** The shoelace area of `_plane_area` is unchanged by any cyclic
rotation of the starting index and by reversal of the point order (the sign
flip of the signed sum is absorbed by `np.abs`), so ED/ES frame selection is
independent of the traversal direction of the contours. -/
theorem planeArea_rotation_reversal_invariant {f p : ℕ}
    (x y : ZMod (p + 1) → ℚ) (k : ZMod (p + 1))
    (xs ys : Fin (f + 1) → ZMod (p + 1) → ℚ) :
    planeArea (fun i => x (i + k)) (fun i => y (i + k)) = planeArea x y ∧
    planeArea (fun i => x (-1 - i)) (fun i => y (-1 - i)) = planeArea x y ∧
    esFrame (fun fr i => xs fr (-1 - i)) (fun fr i => ys fr (-1 - i)) = esFrame xs ys ∧
    edFrame (fun fr i => xs fr (-1 - i)) (fun fr i => ys fr (-1 - i)) = edFrame xs ys :=
  ⟨planeArea_rotate x y k, planeArea_reverse x y,
   by unfold esFrame; rw [areasList_reverse],
   by unfold edFrame; rw [areasList_reverse]⟩

/-! ## Claim C8: degenerate (all-equal) area signal -/

/-- Two identical frames over a 4-point unit square: both areas equal 1, the
degenerate situation the spec says should raise `DegenerateContourError`. -/
def xsD2 : Fin 2 → ZMod 4 → ℚ := fun _ i => if i = 1 ∨ i = 2 then 1 else 0

/-- y-coordinates of the unit square for `xsD2`. -/
def ysD2 : Fin 2 → ZMod 4 → ℚ := fun _ i => if i = 2 ∨ i = 3 then 1 else 0

/-- **C8 (counterexample).** On a case whose per-frame areas are all equal
(two identical square frames, so `areas = [A, A]`), `find_ed_and_es_frame`
does not fail: the source has no error path at all and simply returns
`es_frame = argmin = 0` and `ed_frame = argmax = 0`. -/
theorem find_ed_and_es_frame_degenerate_counterexample :
    areasList xsD2 ysD2 =
      [planeArea (xsD2 0) (ysD2 0), planeArea (xsD2 0) (ysD2 0)] ∧
    esFrame xsD2 ysD2 = 0 ∧ edFrame xsD2 ysD2 = 0 := by
  have hall : ∀ z ∈ areasList xsD2 ysD2, z = planeArea (xsD2 0) (ysD2 0) := by
    intro z hz
    unfold areasList at hz
    obtain ⟨fr, _, rfl⟩ := List.mem_map.mp hz
    rfl
  exact ⟨rfl, npArgmin_eq_zero_of_all_eq hall, npArgmax_eq_zero_of_all_eq hall⟩

/-- **C8 (amended).** For every case whose per-frame shoelace areas are all
equal, `find_ed_and_es_frame` does not raise any error; `np.argmin` and
`np.argmax` both resolve to the first frame, so it returns
`es_frame = ed_frame = 0`. -/
theorem find_ed_and_es_frame_degenerate_amended {f p : ℕ}
    (xs ys : Fin (f + 1) → ZMod (p + 1) → ℚ)
    (h : ∀ fr : Fin (f + 1), planeArea (xs fr) (ys fr) = planeArea (xs 0) (ys 0)) :
    esFrame xs ys = 0 ∧ edFrame xs ys = 0 := by
  have hall : ∀ z ∈ areasList xs ys, z = planeArea (xs 0) (ys 0) := by
    intro z hz
    unfold areasList at hz
    obtain ⟨fr, _, rfl⟩ := List.mem_map.mp hz
    exact h fr
  exact ⟨npArgmin_eq_zero_of_all_eq hall, npArgmax_eq_zero_of_all_eq hall⟩

/-- Two identical triangular frames used to witness the amended C8. -/
def xsD : Fin 2 → ZMod 3 → ℚ := fun _ i => if i = 1 then 1 else 0

/-- y-coordinates of the triangle for `xsD`. -/
def ysD : Fin 2 → ZMod 3 → ℚ := fun _ i => if i = 2 then 1 else 0

theorem find_ed_and_es_frame_degenerate_amended_witness :
    esFrame xsD ysD = 0 ∧ edFrame xsD ysD = 0 :=
  find_ed_and_es_frame_degenerate_amended xsD ysD (fun _ => rfl)

/-! ## Claim C2: `Ventricle.find_apices`

`find_apices` collects `np.argmin(self.data[frame, 1::2])` (the index of the
lowest point) for every frame, and then takes
`values, counts = np.unique(self.apices, return_counts=True)` and
`self.apex = values[np.argmax(counts)]`.  `np.unique` returns the *sorted*
distinct values, and `np.argmax` returns the first maximal count, so ties on
the mode resolve to the smallest index. -/

/-- `np.unique(l)`: sorted distinct values of `l`. -/
def npUnique (l : List ℕ) : List ℕ := List.insertionSort (· ≤ ·) l.dedup

/-- The `counts` component of `np.unique(l, return_counts=True)`. -/
def npCounts (l : List ℕ) : List ℕ := (npUnique l).map (fun v => l.count v)

/-- The `self.apices` list of `find_apices`: per-frame index of the lowest
point, `np.argmin(self.data[frame, 1::2])`. -/
def apicesList {f p : ℕ} (ys : Fin (f + 1) → Fin (p + 1) → ℚ) : List ℕ :=
  (List.finRange (f + 1)).map
    (fun fr => npArgmin ((List.finRange (p + 1)).map (ys fr)))

/-- `self.apex = values[np.argmax(counts)]` in `find_apices`. -/
def apexOf {f p : ℕ} (ys : Fin (f + 1) → Fin (p + 1) → ℚ) : ℕ :=
  (npUnique (apicesList ys)).getD (npArgmax (npCounts (apicesList ys))) 0

theorem npUnique_mem {l : List ℕ} {v : ℕ} : v ∈ npUnique l ↔ v ∈ l :=
  ((List.perm_insertionSort _ l.dedup).mem_iff).trans (List.mem_dedup)

theorem npUnique_sorted (l : List ℕ) : List.Sorted (· ≤ ·) (npUnique l) :=
  List.sorted_insertionSort _ l.dedup

theorem npCounts_getD {l : List ℕ} {j : ℕ} (hj : j < (npUnique l).length) (d : ℕ) :
    (npCounts l).getD j d = l.count ((npUnique l).getD j 0) := by
  have hj' : j < (npCounts l).length := by
    simpa [npCounts] using hj
  rw [List.getD_eq_getElem _ _ hj', List.getD_eq_getElem _ _ hj]
  simp [npCounts]

theorem npCounts_length (l : List ℕ) : (npCounts l).length = (npUnique l).length := by
  simp [npCounts]

/-- **C2.** The overall apex index is the most frequently occurring per-frame
lowest-point index (the mode of `apices`), with the smallest index winning
mode ties, and it always lies in `[0, points)`. -/
theorem find_apices_spec {f p : ℕ} (ys : Fin (f + 1) → Fin (p + 1) → ℚ) :
    apexOf ys ∈ apicesList ys
    ∧ (∀ v ∈ apicesList ys,
        (apicesList ys).count v ≤ (apicesList ys).count (apexOf ys))
    ∧ (∀ v ∈ apicesList ys,
        (apicesList ys).count v = (apicesList ys).count (apexOf ys) → apexOf ys ≤ v)
    ∧ apexOf ys < p + 1 := by
  set l := apicesList ys with hl
  have hlen : l.length = f + 1 := by simp [hl, apicesList]
  have hlne : l ≠ [] := by
    intro hnil
    rw [hnil] at hlen
    simp at hlen
  have hune : npUnique l ≠ [] := by
    have : ∃ x, x ∈ l := List.exists_mem_of_ne_nil l hlne
    obtain ⟨x, hx⟩ := this
    intro hnil
    have := npUnique_mem.mpr hx
    rw [hnil] at this
    simp at this
  have hcne : npCounts l ≠ [] := by
    intro hnil
    have := npCounts_length l
    rw [hnil] at this
    rcases hun : npUnique l with _ | _
    · exact hune hun
    · rw [hun] at this
      simp at this
  have hk : npArgmax (npCounts l) < (npUnique l).length := by
    have := npArgmax_lt_length hcne
    rwa [npCounts_length] at this
  have hapex : apexOf ys = (npUnique l).getD (npArgmax (npCounts l)) 0 := rfl
  have hmemu : apexOf ys ∈ npUnique l := by
    rw [hapex]
    exact getD_mem_of_lt _ 0 hk
  have hmeml : apexOf ys ∈ l := npUnique_mem.mp hmemu
  -- every element of `apices` is an argmin over `p + 1` y-values
  have hbound : ∀ v ∈ l, v < p + 1 := by
    intro v hv
    rw [hl] at hv
    unfold apicesList at hv
    obtain ⟨fr, _, rfl⟩ := List.mem_map.mp hv
    have hne : ((List.finRange (p + 1)).map (ys fr)) ≠ [] := by
      intro hnil
      have : ((List.finRange (p + 1)).map (ys fr)).length = p + 1 := by simp
      rw [hnil] at this
      simp at this
    have := npArgmin_lt_length hne
    simpa using this
  refine ⟨hmeml, fun v hv => ?_, fun v hv hcount => ?_, hbound _ hmeml⟩
  · -- the apex has maximal count
    obtain ⟨jv, hjv, hgetv⟩ := exists_getD_of_mem 0 (npUnique_mem.mpr hv)
    have hjv' : jv < (npCounts l).length := by rwa [npCounts_length]
    have := npArgmax_getD_ge 0 hcne jv hjv'
    rw [npCounts_getD hjv, npCounts_getD hk] at this
    rw [hgetv] at this
    rw [hapex]
    exact this
  · -- on count ties, the smallest index wins because `npUnique` is sorted
    obtain ⟨jv, hjv, hgetv⟩ := exists_getD_of_mem 0 (npUnique_mem.mpr hv)
    have hjv' : jv < (npCounts l).length := by rwa [npCounts_length]
    have heqc : (npCounts l).getD jv 0 = (npCounts l).getD (npArgmax (npCounts l)) 0 := by
      rw [npCounts_getD hjv, npCounts_getD hk, hgetv]
      rw [hapex] at hcount
      exact hcount
    have hkle := npArgmax_first 0 hcne jv hjv' heqc
    -- sortedness transfers index order to value order
    have hsorted := npUnique_sorted l
    have hgle : (npUnique l).get ⟨npArgmax (npCounts l), hk⟩ ≤ (npUnique l).get ⟨jv, hjv⟩ := by
      rcases Nat.lt_or_ge (npArgmax (npCounts l)) jv with hlt | hge
      · exact List.Sorted.rel_get_of_lt hsorted (by simpa [Fin.mk_lt_mk] using hlt)
      · have : npArgmax (npCounts l) = jv := le_antisymm hkle hge
        simp [this]
    rw [hapex, List.getD_eq_getElem _ _ hk, ← hgetv, List.getD_eq_getElem _ _ hjv]
    simpa using hgle

/-- Four frames over a 4-point contour whose lowest point is at index 2 in
frames 0–1 and index 3 in frames 2–3: mode ties between 2 and 3, and the
smaller index 2 must win. -/
def ysA : Fin 4 → Fin 4 → ℚ :=
  fun fr i => if i.val = (if fr.val ≤ 1 then 2 else 3) then 0 else 1

theorem find_apices_spec_witness :
    apexOf ysA ∈ apicesList ysA ∧
    (apicesList ysA).count 3 ≤ (apicesList ysA).count (apexOf ysA) ∧
    ((apicesList ysA).count 3 = (apicesList ysA).count (apexOf ysA) →
      apexOf ysA ≤ 3) ∧
    apexOf ysA < 4 :=
  ⟨(find_apices_spec ysA).1,
   (find_apices_spec ysA).2.1 3 (by decide),
   (find_apices_spec ysA).2.2.1 3 (by decide),
   (find_apices_spec ysA).2.2.2⟩

/-! ## `Ventricle.get_biomarkers` (claims C3 and C4)

The curvature DataFrame `curv` has one row per frame and one column per
point; it is embedded as `A : Fin (f+1) → Fin (c+1) → ℚ`.  Column labels are
`0 .. c` and `curv.loc[:, lb:ub]` is pandas *label-inclusive* slicing, i.e.
the columns `lb ≤ j ≤ ub`. -/

/-- `np.round`: round half to even (banker's rounding), the documented
semantics of `np.round` on exact values. -/
def npRound (q : ℚ) : ℤ :=
  if q - ⌊q⌋ < 1 / 2 then ⌊q⌋
  else if 1 / 2 < q - ⌊q⌋ then ⌊q⌋ + 1
  else if Even ⌊q⌋ then ⌊q⌋ else ⌊q⌋ + 1

/-- The window bounds of `get_biomarkers`: no window for `'2C'`; otherwise
`_t = int(self.view == '4C')` and
`lower_bound = int(np.round((_t * 0.04 + (1 - _t) * 0.6)  * len(curv.columns)))`,
`upper_bound = int(np.round((_t * 0.4  + (1 - _t) * 0.96) * len(curv.columns)))`. -/
def windowBounds (view : String) (C : ℕ) : Option (ℕ × ℕ) :=
  if view = "2C" then none
  else
    let t : ℚ := if view = "4C" then 1 else 0
    some ((npRound ((t * 0.04 + (1 - t) * 0.6) * C)).toNat,
          (npRound ((t * 0.4 + (1 - t) * 0.96) * C)).toNat)

/-- The column labels over which `get_biomarkers` searches for the minimum:
all columns for `'2C'`, otherwise the label-inclusive slice
`lower_bound ≤ j ≤ upper_bound`. -/
def windowCols (view : String) (C : ℕ) : List (Fin C) :=
  match windowBounds view C with
  | none => List.finRange C
  | some (lb, ub) =>
      (List.finRange C).filter (fun j => decide (lb ≤ j.val) && decide (j.val ≤ ub))

/-- Column `j` of the curvature DataFrame (its per-frame values, in frame
order), `curv[j]`. -/
def colVals {f c : ℕ} (A : Fin (f + 1) → Fin (c + 1) → ℚ) (j : Fin (c + 1)) : List ℚ :=
  (List.finRange (f + 1)).map (fun i => A i j)

/-- Row `i` of the curvature DataFrame, `curv.loc[i]`. -/
def rowVals {f c : ℕ} (A : Fin (f + 1) → Fin (c + 1) → ℚ) (i : Fin (f + 1)) : List ℚ :=
  (List.finRange (c + 1)).map (fun j => A i j)

/-- `curv_max_col = curv.max(axis=0).idxmax()`: the first column label whose
column-wise maximum is largest (never windowed). -/
def curvMaxCol {f c : ℕ} (A : Fin (f + 1) → Fin (c + 1) → ℚ) : Fin (c + 1) :=
  (List.finRange (c + 1)).getD
    (npArgmax ((List.finRange (c + 1)).map (fun j => listMax (colVals A j)))) 0

/-- `curv_min_col`: the first column label, within the view's window, whose
column-wise minimum is smallest (`curv.loc[:, lb:ub].min(axis=0).idxmin()`;
for `'2C'` simply `curv.min(axis=0).idxmin()`). -/
def curvMinCol {f c : ℕ} (A : Fin (f + 1) → Fin (c + 1) → ℚ) (view : String) :
    Fin (c + 1) :=
  (windowCols view (c + 1)).getD
    (npArgmin ((windowCols view (c + 1)).map (fun j => listMin (colVals A j)))) 0

/-- `curv_min_row`: the first row label whose minimum over the windowed
columns is smallest (`curv.loc[:, lb:ub].min(axis=1).idxmin()`; for `'2C'`
simply `curv.min(axis=1).idxmin()`). -/
def curvMinRow {f c : ℕ} (A : Fin (f + 1) → Fin (c + 1) → ℚ) (view : String) :
    Fin (f + 1) :=
  (List.finRange (f + 1)).getD
    (npArgmin ((List.finRange (f + 1)).map
      (fun i => listMin ((windowCols view (c + 1)).map (fun j => A i j))))) 0

/-- The biomarker row built by `get_biomarkers`. -/
structure Biomarkers where
  min : ℚ
  max : ℚ
  min_delta : ℚ
  max_delta : ℚ
  amplitude_at_t : ℚ

/-- `get_biomarkers`:
`min = curv.min().min()`, `max = curv.max().max()`,
`min_delta = np.abs(curv[curv_min_col].max() - min)`,
`max_delta = np.abs(curv[curv_max_col].min() - max)`,
`amplitude_at_t = np.abs(curv.loc[curv_min_row].max() - min)`. -/
def getBiomarkers {f c : ℕ} (A : Fin (f + 1) → Fin (c + 1) → ℚ) (view : String) :
    Biomarkers :=
  let mn := listMin ((List.finRange (c + 1)).map (fun j => listMin (colVals A j)))
  let mx := listMax ((List.finRange (c + 1)).map (fun j => listMax (colVals A j)))
  { min := mn
    max := mx
    min_delta := |listMax (colVals A (curvMinCol A view)) - mn|
    max_delta := |listMin (colVals A (curvMaxCol A)) - mx|
    amplitude_at_t := |listMax (rowVals A (curvMinRow A view)) - mn| }

section RoundLemmas

theorem npRound_le (q : ℚ) : (npRound q : ℚ) ≤ q + 1 / 2 := by
  have h1 : (⌊q⌋ : ℚ) ≤ q := Int.floor_le q
  have h2 : q < ⌊q⌋ + 1 := Int.lt_floor_add_one q
  unfold npRound
  by_cases ha : q - ⌊q⌋ < 1 / 2
  · rw [if_pos ha]
    linarith
  · rw [if_neg ha]
    by_cases hb : 1 / 2 < q - ⌊q⌋
    · rw [if_pos hb]
      push_cast
      linarith
    · rw [if_neg hb]
      have htie : q - ⌊q⌋ = 1 / 2 := le_antisymm (not_lt.mp hb) (not_lt.mp ha)
      by_cases hev : Even ⌊q⌋
      · rw [if_pos hev]
        linarith
      · rw [if_neg hev]
        push_cast
        linarith

theorem le_npRound (q : ℚ) : q - 1 / 2 ≤ (npRound q : ℚ) := by
  have h1 : (⌊q⌋ : ℚ) ≤ q := Int.floor_le q
  have h2 : q < ⌊q⌋ + 1 := Int.lt_floor_add_one q
  unfold npRound
  by_cases ha : q - ⌊q⌋ < 1 / 2
  · rw [if_pos ha]
    linarith
  · rw [if_neg ha]
    by_cases hb : 1 / 2 < q - ⌊q⌋
    · rw [if_pos hb]
      push_cast
      linarith
    · rw [if_neg hb]
      have htie : q - ⌊q⌋ = 1 / 2 := le_antisymm (not_lt.mp hb) (not_lt.mp ha)
      by_cases hev : Even ⌊q⌋
      · rw [if_pos hev]
        linarith
      · rw [if_neg hev]
        push_cast
        linarith

theorem npRound_nonneg {q : ℚ} (hq : 0 ≤ q) : 0 ≤ npRound q := by
  have h := le_npRound q
  have : (-1 : ℚ) < (npRound q : ℚ) := by linarith
  have : (-1 : ℤ) < npRound q := by exact_mod_cast this
  omega

end RoundLemmas

section LabelArgmin

theorem argmin_label_spec {β : Type} (W : List β) (g : β → ℚ) (d : β) (hW : W ≠ []) :
    W.getD (npArgmin (W.map g)) d ∈ W ∧
      ∀ b ∈ W, g (W.getD (npArgmin (W.map g)) d) ≤ g b := by
  have hmapne : W.map g ≠ [] := by simpa using hW
  have hk : npArgmin (W.map g) < W.length := by
    have := npArgmin_lt_length hmapne
    simpa using this
  refine ⟨getD_mem_of_lt W d hk, fun b hb => ?_⟩
  obtain ⟨jb, hjb, hgetb⟩ := exists_getD_of_mem d hb
  have hjb' : jb < (W.map g).length := by simpa using hjb
  have h := npArgmin_getD_le (g d) hmapne jb hjb'
  rw [List.getD_map, List.getD_map] at h
  rw [hgetb] at h
  exact h

theorem argmax_label_spec {β : Type} (W : List β) (g : β → ℚ) (d : β) (hW : W ≠ []) :
    W.getD (npArgmax (W.map g)) d ∈ W ∧
      ∀ b ∈ W, g b ≤ g (W.getD (npArgmax (W.map g)) d) := by
  have hmapne : W.map g ≠ [] := by simpa using hW
  have hk : npArgmax (W.map g) < W.length := by
    have := npArgmax_lt_length hmapne
    simpa using this
  refine ⟨getD_mem_of_lt W d hk, fun b hb => ?_⟩
  obtain ⟨jb, hjb, hgetb⟩ := exists_getD_of_mem d hb
  have hjb' : jb < (W.map g).length := by simpa using hjb
  have h := npArgmax_getD_ge (g d) hmapne jb hjb'
  rw [List.getD_map, List.getD_map] at h
  rw [hgetb] at h
  exact h

theorem finRange_ne_nil (n : ℕ) : List.finRange (n + 1) ≠ [] := by
  intro hnil
  have : (List.finRange (n + 1)).length = n + 1 := List.length_finRange (n + 1)
  rw [hnil] at this
  simp at this

end LabelArgmin

section WindowLemmas

theorem windowBounds_4C (C : ℕ) :
    windowBounds "4C" C =
      some ((npRound (0.04 * (C : ℚ))).toNat, (npRound (0.4 * (C : ℚ))).toNat) := by
  unfold windowBounds
  rw [if_neg (by decide)]
  norm_num

theorem windowBounds_3C (C : ℕ) :
    windowBounds "3C" C =
      some ((npRound (0.6 * (C : ℚ))).toNat, (npRound (0.96 * (C : ℚ))).toNat) := by
  have h2 : ¬("3C" : String) = "2C" := by decide
  have h4 : ¬("3C" : String) = "4C" := by decide
  unfold windowBounds
  rw [if_neg h2, if_neg h4]
  norm_num

theorem windowBounds_2C (C : ℕ) : windowBounds "2C" C = none := by
  unfold windowBounds
  rw [if_pos rfl]

theorem windowCols_2C (C : ℕ) : windowCols "2C" C = List.finRange C := by
  unfold windowCols
  rw [windowBounds_2C]

theorem lb_mem_windowCols {c : ℕ} {view : String} {lb ub : ℕ}
    (hb : windowBounds view (c + 1) = some (lb, ub)) (hlb : lb < c + 1)
    (hle : lb ≤ ub) :
    (⟨lb, hlb⟩ : Fin (c + 1)) ∈ windowCols view (c + 1) := by
  unfold windowCols
  rw [hb, List.mem_filter]
  exact ⟨List.mem_finRange _, by simp [hle]⟩

theorem fourC_bounds {c : ℕ} (hc : 2 ≤ c) :
    (npRound (0.04 * ((c + 1 : ℕ) : ℚ))).toNat < c + 1 ∧
    (npRound (0.04 * ((c + 1 : ℕ) : ℚ))).toNat ≤ (npRound (0.4 * ((c + 1 : ℕ) : ℚ))).toNat := by
  have hN : (3 : ℚ) ≤ ((c + 1 : ℕ) : ℚ) := by exact_mod_cast Nat.succ_le_succ hc
  have h1 := npRound_le (0.04 * ((c + 1 : ℕ) : ℚ))
  have h2 := le_npRound (0.4 * ((c + 1 : ℕ) : ℚ))
  have h3 : 0 ≤ npRound (0.04 * ((c + 1 : ℕ) : ℚ)) := npRound_nonneg (by nlinarith)
  have h4 : 0 ≤ npRound (0.4 * ((c + 1 : ℕ) : ℚ)) := npRound_nonneg (by nlinarith)
  constructor
  · have hq : (npRound (0.04 * ((c + 1 : ℕ) : ℚ)) : ℚ) < ((c + 1 : ℕ) : ℚ) := by
      nlinarith
    have hz : npRound (0.04 * ((c + 1 : ℕ) : ℚ)) < ((c + 1 : ℕ) : ℤ) := by
      exact_mod_cast hq
    omega
  · have hq : (npRound (0.04 * ((c + 1 : ℕ) : ℚ)) : ℚ) ≤
        (npRound (0.4 * ((c + 1 : ℕ) : ℚ)) : ℚ) := by nlinarith
    have hz : npRound (0.04 * ((c + 1 : ℕ) : ℚ)) ≤ npRound (0.4 * ((c + 1 : ℕ) : ℚ)) := by
      exact_mod_cast hq
    omega

theorem threeC_bounds {c : ℕ} (hc : 2 ≤ c) :
    (npRound (0.6 * ((c + 1 : ℕ) : ℚ))).toNat < c + 1 ∧
    (npRound (0.6 * ((c + 1 : ℕ) : ℚ))).toNat ≤ (npRound (0.96 * ((c + 1 : ℕ) : ℚ))).toNat := by
  have hN : (3 : ℚ) ≤ ((c + 1 : ℕ) : ℚ) := by exact_mod_cast Nat.succ_le_succ hc
  have h1 := npRound_le (0.6 * ((c + 1 : ℕ) : ℚ))
  have h2 := le_npRound (0.96 * ((c + 1 : ℕ) : ℚ))
  have h3 : 0 ≤ npRound (0.6 * ((c + 1 : ℕ) : ℚ)) := npRound_nonneg (by nlinarith)
  have h4 : 0 ≤ npRound (0.96 * ((c + 1 : ℕ) : ℚ)) := npRound_nonneg (by nlinarith)
  constructor
  · have hq : (npRound (0.6 * ((c + 1 : ℕ) : ℚ)) : ℚ) < ((c + 1 : ℕ) : ℚ) := by
      nlinarith
    have hz : npRound (0.6 * ((c + 1 : ℕ) : ℚ)) < ((c + 1 : ℕ) : ℤ) := by
      exact_mod_cast hq
    omega
  · have hq : (npRound (0.6 * ((c + 1 : ℕ) : ℚ)) : ℚ) ≤
        (npRound (0.96 * ((c + 1 : ℕ) : ℚ)) : ℚ) := by nlinarith
    have hz : npRound (0.6 * ((c + 1 : ℕ) : ℚ)) ≤ npRound (0.96 * ((c + 1 : ℕ) : ℚ)) := by
      exact_mod_cast hq
    omega

end WindowLemmas

/-! ## Claim C3: view-dependent windowing of the minimum search -/

/-- **C3.** The `'4C'` view restricts the minimum search to columns
`[round(0.04·C), round(0.4·C)]`, the `'3C'` view to
`[round(0.6·C), round(0.96·C)]`, and the `'2C'` view applies no window: its
minimum column and minimum row are global.  The chosen minimum column lies
inside the view's window and minimizes the column-wise minimum there, and the
chosen minimum row minimizes the windowed row-wise minimum. -/
theorem get_biomarkers_window_spec {f c : ℕ} (A : Fin (f + 1) → Fin (c + 1) → ℚ)
    (hc : 2 ≤ c) :
    windowBounds "4C" (c + 1) =
      some ((npRound (0.04 * ((c + 1 : ℕ) : ℚ))).toNat,
            (npRound (0.4 * ((c + 1 : ℕ) : ℚ))).toNat)
    ∧ windowBounds "3C" (c + 1) =
      some ((npRound (0.6 * ((c + 1 : ℕ) : ℚ))).toNat,
            (npRound (0.96 * ((c + 1 : ℕ) : ℚ))).toNat)
    ∧ windowBounds "2C" (c + 1) = none
    ∧ windowCols "2C" (c + 1) = List.finRange (c + 1)
    ∧ (∀ view ∈ (["4C", "3C"] : List String),
        curvMinCol A view ∈ windowCols view (c + 1)
        ∧ (∀ j ∈ windowCols view (c + 1),
            listMin (colVals A (curvMinCol A view)) ≤ listMin (colVals A j))
        ∧ (∀ i : Fin (f + 1),
            listMin ((windowCols view (c + 1)).map (fun j => A (curvMinRow A view) j)) ≤
              listMin ((windowCols view (c + 1)).map (fun j => A i j))))
    ∧ (∀ j : Fin (c + 1), listMin (colVals A (curvMinCol A "2C")) ≤ listMin (colVals A j))
    ∧ (∀ i : Fin (f + 1), listMin (rowVals A (curvMinRow A "2C")) ≤ listMin (rowVals A i)) := by
  have h2cW := windowCols_2C (c + 1)
  have h2cne : windowCols "2C" (c + 1) ≠ [] := by
    rw [h2cW]
    exact finRange_ne_nil c
  refine ⟨windowBounds_4C (c + 1), windowBounds_3C (c + 1), windowBounds_2C (c + 1),
    h2cW, fun view hview => ?_, fun j => ?_, fun i => ?_⟩
  · rw [List.mem_cons, List.mem_singleton] at hview
    have hne : windowCols view (c + 1) ≠ [] := by
      rcases hview with rfl | rfl
      · exact List.ne_nil_of_mem
          (lb_mem_windowCols (windowBounds_4C (c + 1)) (fourC_bounds hc).1 (fourC_bounds hc).2)
      · exact List.ne_nil_of_mem
          (lb_mem_windowCols (windowBounds_3C (c + 1)) (threeC_bounds hc).1 (threeC_bounds hc).2)
    refine ⟨(argmin_label_spec _ (fun j => listMin (colVals A j)) 0 hne).1,
      (argmin_label_spec _ (fun j => listMin (colVals A j)) 0 hne).2, fun i => ?_⟩
    exact (argmin_label_spec (List.finRange (f + 1))
      (fun i => listMin ((windowCols view (c + 1)).map (fun j => A i j))) 0
      (finRange_ne_nil f)).2 i (List.mem_finRange i)
  · have hj : j ∈ windowCols "2C" (c + 1) := by
      rw [h2cW]
      exact List.mem_finRange j
    exact (argmin_label_spec _ (fun j => listMin (colVals A j)) 0 h2cne).2 j hj
  · have hrw : ∀ i' : Fin (f + 1),
        (windowCols "2C" (c + 1)).map (fun j => A i' j) = rowVals A i' := by
      intro i'
      rw [h2cW]
      rfl
    have h := (argmin_label_spec (List.finRange (f + 1))
      (fun i' => listMin ((windowCols "2C" (c + 1)).map (fun j => A i' j))) 0
      (finRange_ne_nil f)).2 i (List.mem_finRange i)
    rw [← hrw (curvMinRow A "2C"), ← hrw i]
    exact h

/-- A constant-zero 1-frame, 3-point curvature matrix for the C3 witness. -/
def A0 : Fin 1 → Fin 3 → ℚ := fun _ _ => 0

theorem get_biomarkers_window_spec_witness :
    (2 ≤ 2) ∧
    windowBounds "4C" 3 =
      some ((npRound (0.04 * ((3 : ℕ) : ℚ))).toNat, (npRound (0.4 * ((3 : ℕ) : ℚ))).toNat) ∧
    windowBounds "2C" 3 = none ∧
    curvMinCol A0 "4C" ∈ windowCols "4C" 3 ∧
    listMin (colVals A0 (curvMinCol A0 "2C")) ≤ listMin (colVals A0 2) := by
  have h := get_biomarkers_window_spec A0 (le_refl 2)
  exact ⟨le_refl 2, h.1, h.2.2.1, (h.2.2.2.2.1 "4C" (by simp)).1, h.2.2.2.2.2.1 2⟩

/-! ## Claim C4: the biomarker formulas -/

/-- **C4.** The extracted biomarker row satisfies: `min` / `max` are the
global extrema of the curvature matrix (attained and bounding every entry),
`min_delta = |max(curv[:, curv_min_col]) - min|`,
`max_delta = |min(curv[:, curv_max_col]) - max|` where `curv_max_col`
maximizes the column-wise maximum, and
`amplitude_at_t = |max(curv.loc[curv_min_row]) - min|`. -/
theorem get_biomarkers_formulas {f c : ℕ} (A : Fin (f + 1) → Fin (c + 1) → ℚ)
    (view : String) :
    (∃ i j, A i j = (getBiomarkers A view).min)
    ∧ (∀ i j, (getBiomarkers A view).min ≤ A i j)
    ∧ (∃ i j, A i j = (getBiomarkers A view).max)
    ∧ (∀ i j, A i j ≤ (getBiomarkers A view).max)
    ∧ (getBiomarkers A view).min_delta =
        |listMax (colVals A (curvMinCol A view)) - (getBiomarkers A view).min|
    ∧ (getBiomarkers A view).max_delta =
        |listMin (colVals A (curvMaxCol A)) - (getBiomarkers A view).max|
    ∧ (∀ j : Fin (c + 1), listMax (colVals A j) ≤ listMax (colVals A (curvMaxCol A)))
    ∧ (getBiomarkers A view).amplitude_at_t =
        |listMax (rowVals A (curvMinRow A view)) - (getBiomarkers A view).min| := by
  have hcolne : ∀ j : Fin (c + 1), colVals A j ≠ [] := by
    intro j hnil
    have : (colVals A j).length = f + 1 := by simp [colVals]
    rw [hnil] at this
    simp at this
  have hminmapne : (List.finRange (c + 1)).map (fun j => listMin (colVals A j)) ≠ [] := by
    simp
  have hmaxmapne : (List.finRange (c + 1)).map (fun j => listMax (colVals A j)) ≠ [] := by
    simp
  refine ⟨?_, fun i j => ?_, ?_, fun i j => ?_, rfl, rfl, fun j => ?_, rfl⟩
  · -- the global minimum is attained
    have h1 := listMin_mem hminmapne
    obtain ⟨j, _, hj⟩ := List.mem_map.mp h1
    have h2 := listMin_mem (hcolne j)
    obtain ⟨i, _, hi⟩ := List.mem_map.mp h2
    exact ⟨i, j, by rw [hi, hj]; rfl⟩
  · -- the global minimum bounds every entry
    have h1 : (getBiomarkers A view).min ≤ listMin (colVals A j) :=
      listMin_le _ (List.mem_map_of_mem _ (List.mem_finRange j))
    have h2 : listMin (colVals A j) ≤ A i j :=
      listMin_le _ (List.mem_map_of_mem _ (List.mem_finRange i))
    exact h1.trans h2
  · have h1 := listMax_mem hmaxmapne
    obtain ⟨j, _, hj⟩ := List.mem_map.mp h1
    have h2 := listMax_mem (hcolne j)
    obtain ⟨i, _, hi⟩ := List.mem_map.mp h2
    exact ⟨i, j, by rw [hi, hj]; rfl⟩
  · have h2 : A i j ≤ listMax (colVals A j) :=
      le_listMax _ (List.mem_map_of_mem _ (List.mem_finRange i))
    have h1 : listMax (colVals A j) ≤ (getBiomarkers A view).max :=
      le_listMax _ (List.mem_map_of_mem _ (List.mem_finRange j))
    exact h2.trans h1
  · exact (argmax_label_spec (List.finRange (c + 1)) (fun j => listMax (colVals A j)) 0
      (finRange_ne_nil c)).2 j (List.mem_finRange j)

/-! ## `Cohort._build_data_set` composite indices (claims C5, C9, C10)

The composite indices use `np.log`, so this part is modelled over `ℝ` with
`Real.log`.  In the source, `np.log` of a non-positive value and `0/0` do
*not* raise — numpy emits a warning and produces `-inf`/`NaN`, which
`pd.concat`/`to_csv` happily store.  The embedding is the corresponding
total function, with Mathlib's junk values (`Real.log x = 0` for `x ≤ 0`,
`x / 0 = 0`) at the non-domain points; the observable fact on both sides is
that the build never fails and stores one row per case. -/

/-- The five biomarker columns a case contributes before `_build_data_set`
appends the composite indices. -/
structure CaseRow where
  min : ℝ
  max : ℝ
  min_delta : ℝ
  max_delta : ℝ
  amplitude_at_t : ℝ

/-- A row of `df_all_cases` after `_build_data_set` added its six composite
columns. -/
structure FullRow extends CaseRow where
  min_index2 : ℝ
  min_index : ℝ
  log_min_index : ℝ
  min_v_amp_index : ℝ
  log_min_v_amp_index : ℝ
  delta_ratio : ℝ

/-- The column assignments of `_build_data_set`, restricted to one row:
`min_index2 = np.abs(min_delta / min)`,
`min_index = np.abs(min_delta * min) * 1000`,
`log_min_index = np.log(min_index)`,
`min_v_amp_index = min_delta * amplitude_at_t * 1000`,
`log_min_v_amp_index = np.log(min_v_amp_index)`,
`delta_ratio = min_delta / max_delta`. -/
noncomputable def addCompositeIndices (r : CaseRow) : FullRow :=
  { r with
    min_index2 := |r.min_delta / r.min|
    min_index := |r.min_delta * r.min| * 1000
    log_min_index := Real.log (|r.min_delta * r.min| * 1000)
    min_v_amp_index := r.min_delta * r.amplitude_at_t * 1000
    log_min_v_amp_index := Real.log (r.min_delta * r.amplitude_at_t * 1000)
    delta_ratio := r.min_delta / r.max_delta }

/-- The composite-column computation of `_build_data_set` over the
concatenated table: each column assignment is elementwise, so the table map
is a row map. -/
noncomputable def buildComposites (rows : List CaseRow) : List FullRow :=
  rows.map addCompositeIndices

/-- `_build_data_set`: one biomarker row per case file (keyed by the case
identifier read from the file), concatenated by `pd.concat` and extended
with the composite columns. -/
noncomputable def buildDataSet (cases : List (String × CaseRow)) :
    List (String × FullRow) :=
  cases.map (fun pr => (pr.1, addCompositeIndices pr.2))

/-! ## Claim C5: composite indices are pure functions of stored columns -/

/-- **C5.** Every composite column equals the stated elementwise function of
the already-computed columns of the same (stored) table, so re-deriving any
of them from the persisted `min_delta`/`min`/`max_delta`/`amplitude_at_t`
(or `min_index`/`min_v_amp_index`) columns reproduces the stored column
exactly. -/
theorem composite_indices_pure (rows : List CaseRow) :
    (buildComposites rows).map (fun r => r.min_index2) =
      (buildComposites rows).map (fun r => |r.min_delta / r.min|)
    ∧ (buildComposites rows).map (fun r => r.min_index) =
      (buildComposites rows).map (fun r => |r.min_delta * r.min| * 1000)
    ∧ (buildComposites rows).map (fun r => r.log_min_index) =
      (buildComposites rows).map (fun r => Real.log r.min_index)
    ∧ (buildComposites rows).map (fun r => r.min_v_amp_index) =
      (buildComposites rows).map (fun r => r.min_delta * r.amplitude_at_t * 1000)
    ∧ (buildComposites rows).map (fun r => r.log_min_v_amp_index) =
      (buildComposites rows).map (fun r => Real.log r.min_v_amp_index)
    ∧ (buildComposites rows).map (fun r => r.delta_ratio) =
      (buildComposites rows).map (fun r => r.min_delta / r.max_delta) := by
  simp only [buildComposites, List.map_map]
  exact ⟨rfl, rfl, rfl, rfl, rfl, rfl⟩

/-! ## Claim C9: no `DomainError` exists in the source -/

/-- The all-identical-frames case: `min = max = 0` and both deltas `0`, the
input for which the spec expects `DomainError`. -/
noncomputable def degenerateRow : CaseRow :=
  { min := 0, max := 0, min_delta := 0, max_delta := 0, amplitude_at_t := 0 }

/-- **C9 (counterexample).** On a case with `min_index = 0 ≤ 0` and
`delta_ratio = 0/0`, the composite-index computation of `_build_data_set`
does not fail — it produces (and stores) exactly one row. -/
theorem build_data_set_domain_counterexample :
    (buildComposites [degenerateRow]).length = 1 := rfl

/-- **C9 (amended).** The composite-index computation never raises: `np.log`
and float division are total (producing `-inf`/`NaN`, stored silently), so
`_build_data_set` yields one row for every case, including those with
`min_index ≤ 0` or `min_delta = max_delta = 0`. -/
theorem build_data_set_total_amended (rows : List CaseRow) :
    (buildComposites rows).length = rows.length := by
  simp [buildComposites]

/-! ## Claim C10: no `DuplicateCaseIdError` exists in the source -/

/-- **C10 (counterexample).** Two case files yielding the same identifier do
not make the per-view build fail: `pd.concat` keeps both rows, producing a
table whose index contains the identifier twice. -/
theorem build_data_set_duplicate_counterexample :
    (buildDataSet [("case1", degenerateRow), ("case1", degenerateRow)]).map Prod.fst =
      ["case1", "case1"] := rfl

/-- **C10 (amended).** `_build_data_set` never fails on duplicate case
identifiers: the concatenated table's index lists every case file's
identifier in file order, duplicates included. -/
theorem build_data_set_ids_amended (cases : List (String × CaseRow)) :
    (buildDataSet cases).map Prod.fst = cases.map Prod.fst := by
  simp [buildDataSet]

/-! ## `Cohort._build_master_table` (claim C6)

A persisted per-view table: column headers plus rows indexed by the case
identifier (the row values play no role in the merge, so they stay in `ℚ`
like the rest of the numeric model).  `df.merge(other, right_index=True,
left_index=True, sort=True)` is an inner join on the index: it keeps the
identifiers present in both tables, puts the columns side by side, and
sorts the result by identifier. -/

/-- A persisted per-view case table. -/
structure PTable where
  cols : List String
  rows : List (String × List ℚ)

/-- The index (case identifiers) of a table. -/
def tableIds (t : PTable) : List String := t.rows.map Prod.fst

/-- `self.df_all_cases.columns = [self.view + '_' + col for col in columns]`. -/
def prefixCols (view : String) (t : PTable) : PTable :=
  { cols := t.cols.map (fun col => view ++ "_" ++ col), rows := t.rows }

/-- `left.merge(right, right_index=True, left_index=True, sort=True)`. -/
def mergeInner (t1 t2 : PTable) : PTable :=
  { cols := t1.cols ++ t2.cols
    rows := List.insertionSort (fun r s => r.1 ≤ s.1)
      ((t1.rows.filter (fun r => decide (r.1 ∈ tableIds t2))).map
        (fun r => (r.1, r.2 ++
          (((t2.rows.find? (fun s => decide (s.1 = r.1))).map Prod.snd).getD [])))) }

/-- `_build_master_table`: prefix every view's columns with `"<view>_"`,
then left-fold `merge` over the per-view tables. -/
def masterTable : List (String × PTable) → PTable
  | [] => { cols := [], rows := [] }
  | (v, t) :: rest =>
      (rest.map (fun vt => prefixCols vt.1 vt.2)).foldl mergeInner (prefixCols v t)

instance rowKeyLETotal : IsTotal (String × List ℚ) (fun r s => r.1 ≤ s.1) :=
  ⟨fun a b => le_total a.1 b.1⟩

instance rowKeyLETrans : IsTrans (String × List ℚ) (fun r s => r.1 ≤ s.1) :=
  ⟨fun _ _ _ hab hbc => le_trans hab hbc⟩

theorem tableIds_prefixCols (view : String) (t : PTable) :
    tableIds (prefixCols view t) = tableIds t := rfl

theorem mem_tableIds_mergeInner {i : String} {t1 t2 : PTable} :
    i ∈ tableIds (mergeInner t1 t2) ↔ i ∈ tableIds t1 ∧ i ∈ tableIds t2 := by
  unfold tableIds mergeInner
  rw [List.Perm.mem_iff (List.Perm.map _ (List.perm_insertionSort _ _)), List.map_map]
  constructor
  · intro h
    obtain ⟨r, hr, hri⟩ := List.mem_map.mp h
    have h1 := List.mem_filter.mp hr
    have h2 := h1.2
    simp only [decide_eq_true_eq] at h2
    have hfst : r.1 ∈ List.map Prod.fst t1.rows := List.mem_map_of_mem Prod.fst h1.1
    refine ⟨?_, ?_⟩
    · rw [← hri]
      exact hfst
    · rw [← hri]
      exact h2
  · rintro ⟨h1, h2⟩
    obtain ⟨r, hr, rfl⟩ := List.mem_map.mp h1
    refine List.mem_map.mpr ⟨r, ?_, rfl⟩
    refine List.mem_filter.mpr ⟨hr, ?_⟩
    simp only [decide_eq_true_eq]
    exact h2

theorem mem_tableIds_foldl (ts : List PTable) (acc : PTable) (i : String) :
    i ∈ tableIds (ts.foldl mergeInner acc) ↔
      i ∈ tableIds acc ∧ ∀ x ∈ ts, i ∈ tableIds x := by
  induction ts generalizing acc with
  | nil => simp
  | cons x xs ih =>
    rw [List.foldl_cons, ih, mem_tableIds_mergeInner, List.forall_mem_cons]
    tauto

theorem cols_foldl (ts : List PTable) (acc : PTable) :
    (ts.foldl mergeInner acc).cols = acc.cols ++ (ts.map PTable.cols).flatten := by
  induction ts generalizing acc with
  | nil => simp
  | cons x xs ih =>
    rw [List.foldl_cons, ih]
    simp [mergeInner]

theorem foldl_mergeInner_ne_nil (ts : List PTable) (acc : PTable) (h : ts ≠ []) :
    ∃ a b, ts.foldl mergeInner acc = mergeInner a b := by
  induction ts generalizing acc with
  | nil => exact absurd rfl h
  | cons x xs ih =>
    rcases xs with _ | ⟨y, ys⟩
    · exact ⟨acc, x, rfl⟩
    · rw [List.foldl_cons]
      exact ih (mergeInner acc x) (by simp)

theorem sorted_tableIds_mergeInner (t1 t2 : PTable) :
    List.Sorted (· ≤ ·) (tableIds (mergeInner t1 t2)) := by
  unfold tableIds mergeInner
  have hs : List.Sorted (fun r s => r.1 ≤ s.1)
      (List.insertionSort (fun r s : String × List ℚ => r.1 ≤ s.1)
        ((t1.rows.filter (fun r => decide (r.1 ∈ tableIds t2))).map
          (fun r => (r.1, r.2 ++
            (((t2.rows.find? (fun s => decide (s.1 = r.1))).map Prod.snd).getD []))))) :=
    List.sorted_insertionSort _ _
  exact List.Pairwise.map _ (fun _ _ hab => hab) hs

/-! ## Claim C6: the master table is a sorted inner join -/

/-- **C6.** For a fixed ordered list of views, the master table contains
exactly the case identifiers present in *all* merged per-view tables, every
column of a view's table appears prefixed with `"<view>_"`, the master's
column count is the sum of the per-view column counts, and (as soon as at
least two tables are merged) the index is sorted. -/
theorem build_master_table_spec (v : String) (t : PTable)
    (rest : List (String × PTable)) :
    (∀ i : String, i ∈ tableIds (masterTable ((v, t) :: rest)) ↔
        (i ∈ tableIds t ∧ ∀ vt ∈ rest, i ∈ tableIds vt.2))
    ∧ (masterTable ((v, t) :: rest)).cols.length =
        (((v, t) :: rest).map (fun vt => vt.2.cols.length)).sum
    ∧ (∀ vt ∈ ((v, t) :: rest), ∀ s ∈ vt.2.cols,
        (vt.1 ++ "_" ++ s) ∈ (masterTable ((v, t) :: rest)).cols)
    ∧ (rest ≠ [] → List.Sorted (· ≤ ·) (tableIds (masterTable ((v, t) :: rest)))) := by
  have hcols : (masterTable ((v, t) :: rest)).cols =
      (prefixCols v t).cols ++
        ((rest.map (fun vt => prefixCols vt.1 vt.2)).map PTable.cols).flatten := by
    unfold masterTable
    exact cols_foldl _ _
  refine ⟨fun i => ?_, ?_, ?_, fun hrest => ?_⟩
  · unfold masterTable
    rw [mem_tableIds_foldl, tableIds_prefixCols]
    constructor
    · rintro ⟨h1, h2⟩
      refine ⟨h1, fun vt hvt => ?_⟩
      have := h2 (prefixCols vt.1 vt.2) (List.mem_map_of_mem _ hvt)
      rwa [tableIds_prefixCols] at this
    · rintro ⟨h1, h2⟩
      refine ⟨h1, fun x hx => ?_⟩
      obtain ⟨vt, hvt, rfl⟩ := List.mem_map.mp hx
      rw [tableIds_prefixCols]
      exact h2 vt hvt
  · rw [hcols, List.length_append]
    simp only [List.map_cons, List.sum_cons]
    congr 1
    · simp [prefixCols]
    · rw [List.length_flatten, List.map_map, List.map_map]
      apply congrArg List.sum
      apply List.map_congr_left
      intro vt _
      simp [prefixCols]
  · intro vt hvt s hs
    rw [hcols]
    rcases List.mem_cons.mp hvt with rfl | hvt'
    · apply List.mem_append_left
      exact List.mem_map_of_mem _ hs
    · apply List.mem_append_right
      rw [List.mem_flatten]
      refine ⟨(prefixCols vt.1 vt.2).cols, ?_, List.mem_map_of_mem _ hs⟩
      rw [List.mem_map]
      exact ⟨prefixCols vt.1 vt.2, List.mem_map_of_mem _ hvt', rfl⟩
  · obtain ⟨a, b, hab⟩ := foldl_mergeInner_ne_nil
      (rest.map (fun vt => prefixCols vt.1 vt.2)) (prefixCols v t)
      (by simpa using hrest)
    rw [show masterTable ((v, t) :: rest) =
      (rest.map (fun vt => prefixCols vt.1 vt.2)).foldl mergeInner (prefixCols v t)
      from rfl, hab]
    exact sorted_tableIds_mergeInner a b

/-- Two tiny per-view tables with overlapping identifiers for the C6
witness: view `"4C"` has cases `b, a`; view `"3C"` has cases `a, c`. -/
def t4 : PTable := { cols := ["min", "max"], rows := [("b", [1, 2]), ("a", [3, 4])] }

/-- The second witness table (view `"3C"`). -/
def t3 : PTable := { cols := ["min"], rows := [("a", [5]), ("c", [6])] }

theorem build_master_table_spec_witness :
    ([("3C", t3)] ≠ ([] : List (String × PTable))) ∧
    ("a" ∈ tableIds (masterTable [("4C", t4), ("3C", t3)]) ↔
      ("a" ∈ tableIds t4 ∧ ∀ vt ∈ [("3C", t3)], "a" ∈ tableIds vt.2)) ∧
    (masterTable [("4C", t4), ("3C", t3)]).cols.length =
      ([("4C", t4), ("3C", t3)].map (fun vt => vt.2.cols.length)).sum ∧
    List.Sorted (· ≤ ·) (tableIds (masterTable [("4C", t4), ("3C", t3)])) := by
  have h := build_master_table_spec "4C" t4 [("3C", t3)]
  exact ⟨by simp, h.1 "a", h.2.1, h.2.2.2 (by simp)⟩

end CurvaturePipeline
